import Mathlib

/-
Verification of the aggregation engine of the arbopionions repository:
multi-source market-snapshot fetching (app/api/markets/route.ts),
adapter price normalization (lib/marketSources.ts), cross-source
clustering (lib/marketClustering.ts) and keyword theme classification
(lib/marketThemes.ts).

Conventions of the shallow embedding:
- JavaScript numbers are modelled as rationals; non-finite values
  (NaN, Infinity) and nullish values get explicit constructors where the
  code tests for them.
- JavaScript Map objects (which iterate in key-insertion order) are
  modelled as ordered association lists; Set objects as lists without
  duplicates, or with an explicit membership test before insertion,
  mirroring the code.
- The similarity function calculateMarketSimilarity and the title
  normalizer normalizeMarketTitle live in lib/marketMatching.ts, which is
  not part of the sources at hand (only its callers and tests are); the
  clustering embedding is therefore parameterized by these two functions,
  and every theorem about clustering is proved for all instantiations.
- Asynchronous code is modelled by explicit state passing: one
  aggregation run is a pure function of the per-platform environment
  (cache entry, in-flight handle, fetch outcome), and the single-flight
  discipline is a step function on the per-source cache state, exploiting
  the JavaScript run-to-completion model (no interleaving between await
  points).
-/

/-- Platform identifiers, lib/types.ts PlatformSource. -/
inductive PlatformSource
  | opinion
  | kalshi
  | polymarket
  | predictfun
  | limitless
deriving DecidableEq, Repr, Inhabited

/-- Name of a platform as the string literal of the union type; used for the
localeCompare-based member sort in buildClusters. -/
def PlatformSource.name : PlatformSource → String
  | .opinion => "opinion"
  | .kalshi => "kalshi"
  | .polymarket => "polymarket"
  | .predictfun => "predictfun"
  | .limitless => "limitless"

/-- Normalized market price snapshot, lib/types.ts MarketPriceSnapshot. -/
structure MarketPriceSnapshot where
  platform : PlatformSource
  marketId : String
  marketTitle : String
  price : ℚ
  updatedAt : ℚ
  url : Option String := none
  expiresAt : Option ℚ := none
  category : Option String := none
  tags : Option (List String) := none
  description : Option String := none
deriving DecidableEq, Repr, Inhabited

/-- Clustered market within a cluster, lib/types.ts ClusterMarket. -/
structure ClusterMarket where
  platform : PlatformSource
  marketId : String
  marketTitle : String
  marketUrl : String
  yesPrice : ℚ
  noPrice : ℚ
  volume24h : ℚ
  updatedAt : ℚ
  expiresAt : Option ℚ
  category : Option String
  tags : Option (List String)
  description : Option String
deriving DecidableEq, Repr, Inhabited

/-- Metadata attached to MarketData in buildClusters (lib/marketClustering.ts,
the metadata field built from expiresAt, category and tags). -/
structure MarketMetadata where
  expiresAt : Option ℚ
  category : Option String
  tags : Option (List String)
deriving DecidableEq, Repr, Inhabited

/-- Input shape of the market matcher, lib/marketMatching.ts MarketData as
constructed in buildClusters. -/
structure MarketData where
  platform : PlatformSource
  marketId : String
  marketTitle : String
  marketUrl : String
  yesPrice : ℚ
  noPrice : ℚ
  volume24h : ℚ
  updatedAt : ℚ
  expiresAt : Option ℚ
  category : Option String
  tags : Option (List String)
  description : Option String
  metadata : MarketMetadata
deriving DecidableEq, Repr, Inhabited

/-- Cluster of similar markets, lib/types.ts MarketCluster. -/
structure MarketCluster where
  id : String
  title : String
  normalizedTitle : String
  themeKey : String
  platformCount : Nat
  markets : List ClusterMarket
deriving DecidableEq, Repr, Inhabited

/-- Theme grouping of clusters, lib/types.ts ThemeClusterGroup. -/
structure ThemeClusterGroup where
  themeKey : String
  totalClusters : Nat
  totalMarkets : Nat
  clusters : List MarketCluster
deriving DecidableEq, Repr, Inhabited

/-- One theme of the fixed taxonomy, lib/marketThemes.ts MarketTheme.
The presentation-only fields (description and the three CSS class strings)
play no role in any computation and are omitted. -/
structure MarketTheme where
  key : String
  label : String
  keywords : List String
deriving DecidableEq, Repr, Inhabited

/-- Declared theme taxonomy in priority order, lib/marketThemes.ts
marketThemes. -/
def marketThemes : List MarketTheme :=
  [ { key := "trump", label := "Trump",
      keywords := ["trump", "donald", "maga"] },
    { key := "politics", label := "Politics",
      keywords := ["election", "president", "whitehouse", "white house",
        "congress", "senate", "house", "biden", "democrat", "republican",
        "gop", "campaign", "governor", "primary"] },
    { key := "crypto", label := "Crypto",
      keywords := ["bitcoin", "btc", "ethereum", "eth", "solana", "doge",
        "crypto", "token", "defi", "stablecoin"] },
    { key := "macro", label := "Macro",
      keywords := ["fed", "rate", "inflation", "cpi", "gdp", "recession",
        "jobs", "unemployment", "economy"] },
    { key := "tech", label := "Tech & AI",
      keywords := ["ai", "openai", "chatgpt", "nvidia", "apple", "tesla",
        "microsoft", "google", "meta", "amazon", "chip"] },
    { key := "sports", label := "Sports",
      keywords := ["nfl", "nba", "mlb", "nhl", "soccer", "football", "fifa",
        "uefa", "world cup", "super bowl", "olympic", "championship"] },
    { key := "entertainment", label := "Entertainment",
      keywords := ["oscar", "grammy", "emmy", "movie", "film", "music",
        "album", "tour", "box office"] },
    { key := "climate", label := "Climate",
      keywords := ["hurricane", "climate", "weather", "temperature", "rain",
        "snow", "el nino", "la nina"] },
    { key := "health", label := "Health",
      keywords := ["covid", "flu", "vaccine", "health", "disease", "cancer"] },
    { key := "other", label := "Other",
      keywords := [] } ]

/-- Lower-casing of a string, modelling String.prototype.toLowerCase as the
character-wise lowering it performs on ASCII text. -/
def strToLower (s : String) : String :=
  String.mk (s.data.map Char.toLower)

/-- Split of a character list at every separator character (those satisfying
the predicate), keeping empty pieces, as JavaScript split does at each
match. Splitting at every single separator differs from splitting at
separator runs only in the empty pieces, which every caller filters out. -/
def splitChars (p : Char → Bool) : List Char → List (List Char)
  | [] => [[]]
  | c :: rest =>
    if p c then [] :: splitChars p rest
    else
      match splitChars p rest with
      | [] => [[c]]
      | t :: ts => (c :: t) :: ts

/-- Split of a string at separator characters, keeping empty pieces. -/
def splitKeep (p : Char → Bool) (s : String) : List String :=
  (splitChars p s.data).map String.mk

/-- Tokenize a title, lib/marketThemes.ts tokenizeTitle: lower-case, split on
runs of characters outside a-z0-9, drop empty pieces. -/
def tokenizeTitle (title : String) : List String :=
  (splitKeep (fun c => !(c.isLower || c.isDigit)) (strToLower title)).filter
    (fun t => t ≠ "")

/-- Decide whether the first list occurs as a prefix of the second. -/
def isPrefixChars : List Char → List Char → Bool
  | [], _ => true
  | _ :: _, [] => false
  | a :: as, b :: bs => a == b && isPrefixChars as bs

/-- JavaScript String.prototype.includes on character lists: the needle
occurs contiguously somewhere in the haystack. -/
def containsSub (hay needle : List Char) : Bool :=
  isPrefixChars needle hay ||
    match hay with
    | [] => false
    | _ :: t => containsSub t needle

/-- Substring test on strings, modelling title.includes(keyword). -/
def strIncludes (hay needle : String) : Bool :=
  containsSub hay.toList needle.toList

/-- Keyword matching, lib/marketThemes.ts matchesKeyword: a keyword with a
space matches as a substring of the (lower-cased) title, a single word must
be an exact token. The tokens argument models the Set of tokens; membership
is list membership. -/
def matchesKeyword (title : String) (tokens : List String) (keyword : String) :
    Bool :=
  let normalized := strToLower keyword
  if strIncludes normalized " " then
    strIncludes title normalized
  else
    tokens.contains normalized

/-- Loop body of classifyMarketTheme over the remaining themes: the theme
with key other is skipped, the first remaining theme with any keyword match
wins, and the fall-through result is other. -/
def classifyGo (normalizedTitle : String) (tokens : List String) :
    List MarketTheme → String
  | [] => "other"
  | theme :: rest =>
    if theme.key == "other" then classifyGo normalizedTitle tokens rest
    else if theme.keywords.any
        (fun keyword => matchesKeyword normalizedTitle tokens keyword) then
      theme.key
    else classifyGo normalizedTitle tokens rest

/-- Theme classification, lib/marketThemes.ts classifyMarketTheme. The
declared function binds a single parameter, the title. -/
def classifyMarketTheme (title : String) : String :=
  classifyGo (strToLower title) (tokenizeTitle title) marketThemes

/-- Embeds the two-argument call site of lib/marketClustering.ts line 164,
classifyMarketTheme(primary.marketTitle, [category, description, ...tags]).
The declared classifyMarketTheme (lib/marketThemes.ts) binds only the title
parameter, so at runtime JavaScript discards the second argument; the aux
list is therefore dead in this definition, exactly as in the running code. -/
def classifyMarketThemeWithAux (title : String)
    (_aux : List (Option String)) : String :=
  classifyMarketTheme title

/-- Adaptive union threshold, lib/marketClustering.ts getAdaptiveThreshold:
the mean title length selects a breakpoint from a fixed step table. -/
def getAdaptiveThreshold (titleA titleB : String) : ℚ :=
  let lengthScore : ℚ := ((titleA.length : ℚ) + (titleB.length : ℚ)) / 2
  if lengthScore ≤ 45 then 88 / 100
  else if lengthScore ≤ 80 then 82 / 100
  else if 140 ≤ lengthScore then 72 / 100
  else 78 / 100

/-- Insertion-ordered deduplication, modelling construction of a JavaScript
Set by successive add calls followed by Array.from. -/
def setAddAll {α : Type} [DecidableEq α] (l : List α) : List α :=
  l.foldl (fun acc x => if x ∈ acc then acc else acc ++ [x]) []

/-- Bucket keys for one title, lib/marketClustering.ts buildBucketKeys.
The title normalizer normalizeMarketTitle comes from lib/marketMatching.ts
(not among the sources at hand) and is passed as the parameter norm; its
second argument models the optional aggressive flag, false when absent. -/
def buildBucketKeys (norm : String → Bool → String) (title : String) :
    List String :=
  let normalized := norm title true
  let tokens := (splitKeep (fun c => c == ' ') normalized).filter
    (fun t => t ≠ "")
  if tokens.length = 0 then
    let fallback := String.mk ((norm title false).data.take 30)
    if fallback ≠ "" then [fallback] else []
  else
    let keys := setAddAll
      ([String.intercalate "-" (tokens.take 4)] ++
        (if 4 < tokens.length then
          [String.intercalate "-" (tokens.drop (tokens.length - 4))]
        else []) ++
        (if 8 < tokens.length then
          [String.intercalate "-" ((tokens.drop 2).take 4)]
        else []))
    keys.filter (fun k => k ≠ "")

/-- Ordered association-list multimap update: append the value to the entry
of the key, or create a new entry at the end. Models the get-push-or-set
pattern on a JavaScript Map of arrays (bucketMap and clustersByRoot in
lib/marketClustering.ts), whose iteration order is key-insertion order. -/
def upsertAppend {κ α : Type} [DecidableEq κ] :
    List (κ × List α) → κ → α → List (κ × List α)
  | [], k, x => [(k, [x])]
  | (k', v) :: rest, k, x =>
    if k' = k then (k', v ++ [x]) :: rest
    else (k', v) :: upsertAppend rest k x

/-- Conversion of a snapshot to a cluster member, lib/marketClustering.ts
lines 53 to 66. -/
def toClusterMarket (snapshot : MarketPriceSnapshot) : ClusterMarket :=
  { platform := snapshot.platform,
    marketId := snapshot.marketId,
    marketTitle := snapshot.marketTitle,
    marketUrl := snapshot.url.getD "",
    yesPrice := snapshot.price,
    noPrice := 1 - snapshot.price,
    volume24h := 0,
    updatedAt := snapshot.updatedAt,
    expiresAt := snapshot.expiresAt,
    category := snapshot.category,
    tags := snapshot.tags,
    description := snapshot.description }

/-- Conversion of a cluster member to matcher input, lib/marketClustering.ts
lines 68 to 86. -/
def toMarketData (market : ClusterMarket) : MarketData :=
  { platform := market.platform,
    marketId := market.marketId,
    marketTitle := market.marketTitle,
    marketUrl := market.marketUrl,
    yesPrice := market.yesPrice,
    noPrice := market.noPrice,
    volume24h := market.volume24h,
    updatedAt := market.updatedAt,
    expiresAt := market.expiresAt,
    category := market.category,
    tags := market.tags,
    description := market.description,
    metadata :=
      { expiresAt := market.expiresAt,
        category := market.category,
        tags := market.tags } }

/-- Bucket map construction, lib/marketClustering.ts lines 88 to 102:
every market contributes its index to each of its bucket keys (a market
with no keys contributes nothing, matching the early return). -/
def bucketMapGo (norm : String → Bool → String) :
    List MarketData → Nat → List (String × List Nat) →
    List (String × List Nat)
  | [], _, acc => acc
  | m :: rest, idx, acc =>
    let keys := buildBucketKeys norm m.marketTitle
    bucketMapGo norm rest (idx + 1)
      (keys.foldl (fun a k => upsertAppend a k idx) acc)

/-- Bucket map of a market list, starting from the empty map at index 0. -/
def bucketMapOf (norm : String → Bool → String) (mds : List MarketData) :
    List (String × List Nat) :=
  bucketMapGo norm mds 0 []

/-- One step of findRoot with path compression, lib/marketClustering.ts
lines 105 to 112, with the mutated parent array threaded explicitly. The
while loop of the source terminates because the parent array always encodes
a forest (it starts as the identity and is only changed by unions and path
compression); a fuel of the array size bounds the number of iterations, so
findRoot below runs the loop with that fuel. -/
def findRootAux : Nat → Array Nat → Nat → Nat × Array Nat
  | 0, parent, current => (current, parent)
  | fuel + 1, parent, current =>
    let p := parent.getD current current
    if p = current then (current, parent)
    else
      let gp := parent.getD p p
      findRootAux fuel (parent.setD current gp) gp

/-- Root lookup with path compression, lib/marketClustering.ts findRoot. -/
def findRoot (parent : Array Nat) (i : Nat) : Nat × Array Nat :=
  findRootAux parent.size parent i

/-- Union of two classes, lib/marketClustering.ts lines 113 to 119. -/
def unionUF (parent : Array Nat) (a b : Nat) : Array Nat :=
  let ra := findRoot parent a
  let rb := findRoot ra.2 b
  if ra.1 = rb.1 then rb.2 else rb.2.setD rb.1 ra.1

/-- State of the candidate-pair scan, lib/marketClustering.ts lines 121 to
145: the union-find parent array, the seenPairs set (the source keys the
set by the string min-max, which is in bijection with the ordered index
pair used here), and, as instrumentation, the list of pairs actually passed
to calculateMarketSimilarity, in call order with the original argument
order. -/
structure ScanState where
  parent : Array Nat
  seen : List (Nat × Nat)
  scored : List (Nat × Nat)
deriving Repr

/-- Unordered pair key, lib/marketClustering.ts line 130. -/
def pairKeyOf (l r : Nat) : Nat × Nat :=
  if l < r then (l, r) else (r, l)

/-- Index pairs produced by the nested i < j loops over one bucket, in
iteration order. -/
def orderedPairs : List Nat → List (Nat × Nat)
  | [] => []
  | x :: xs => xs.map (fun y => (x, y)) ++ orderedPairs xs

/-- Body of the candidate loop for one index pair, lib/marketClustering.ts
lines 125 to 143: skip same-platform pairs, skip already-seen unordered
pairs, otherwise record the pair, score it and union on meeting the
adaptive threshold. -/
def processPair (sim : MarketData → MarketData → ℚ) (md : Array MarketData)
    (st : ScanState) (l r : Nat) : ScanState :=
  let ml := md.getD l default
  let mr := md.getD r default
  if ml.platform = mr.platform then st
  else
    let key := pairKeyOf l r
    if key ∈ st.seen then st
    else
      let st' : ScanState :=
        { st with seen := st.seen ++ [key], scored := st.scored ++ [(l, r)] }
      let similarity := sim ml mr
      let threshold := getAdaptiveThreshold ml.marketTitle mr.marketTitle
      if threshold ≤ similarity then
        { st' with parent := unionUF st'.parent l r }
      else st'

/-- Scan of the pairs of one bucket. -/
def scanPairs (sim : MarketData → MarketData → ℚ) (md : Array MarketData)
    (st : ScanState) (ps : List (Nat × Nat)) : ScanState :=
  ps.foldl (fun s p => processPair sim md s p.1 p.2) st

/-- Full candidate scan over all buckets in insertion order, starting from
the identity parent array (lib/marketClustering.ts line 104) and empty
seenPairs set. -/
def candidateScan (sim : MarketData → MarketData → ℚ)
    (md : Array MarketData) (buckets : List (String × List Nat)) :
    ScanState :=
  buckets.foldl (fun st b => scanPairs sim md st (orderedPairs b.2))
    { parent := Array.range md.size, seen := [], scored := [] }

/-- Grouping of the markets by their union-find root, lib/marketClustering
lines 147 to 156, threading the parent array because findRoot compresses
paths while materializing. -/
def groupByRootGo {α : Type} :
    Array Nat → Nat → List α → List (Nat × List α) →
    List (Nat × List α) × Array Nat
  | parent, _, [], acc => (acc, parent)
  | parent, idx, x :: xs, acc =>
    let r := findRoot parent idx
    groupByRootGo r.2 (idx + 1) xs (upsertAppend acc r.1 x)

/-- Groups of markets by root, in first-appearance order. -/
def groupByRoot {α : Type} (parent : Array Nat) (ms : List α) :
    List (Nat × List α) × Array Nat :=
  groupByRootGo parent 0 ms []

/-- The reduce of lib/marketClustering.ts lines 159 to 161: the running
best is replaced only on a strictly longer title, so ties keep the earlier
member. -/
def longestMarket (head : ClusterMarket) (rest : List ClusterMarket) :
    ClusterMarket :=
  rest.foldl
    (fun best cur =>
      if best.marketTitle.length < cur.marketTitle.length then cur else best)
    head

/-- Stable insertion of an element into a sorted list: the element goes in
front of the first entry it may precede, hence after every earlier equal
entry. -/
def insertStable {α : Type} (le : α → α → Bool) (x : α) : List α → List α
  | [] => [x]
  | y :: ys => if le x y then x :: y :: ys else y :: insertStable le x ys

/-- Stable sort by insertion. Array.prototype.sort is stable per the
ECMAScript specification, and for a comparator inducing a total preorder a
stable sort's output is uniquely determined, so insertion sort is a
faithful model of both sorts of buildClusters; no theorem below depends on
the resulting order, only on the permutation property. -/
def sortStable {α : Type} (le : α → α → Bool) (l : List α) : List α :=
  l.foldr (insertStable le) []

/-- Member ordering of a cluster, lib/marketClustering.ts line 176:
ascending localeCompare on the platform name. -/
def marketLe (a b : ClusterMarket) : Bool :=
  decide (a.platform.name ≤ b.platform.name)

/-- Materialization of one root group into a cluster, lib/marketClustering
lines 158 to 178. The empty case is unreachable (a reduce over an empty
array would throw in the source; every group holds at least one member).
The call that computes themeKey passes the auxiliary fields exactly as the
source does at line 164. -/
def materializeCluster (norm : String → Bool → String)
    (g : List ClusterMarket) (index : Nat) : MarketCluster :=
  match g with
  | [] => default
  | h :: t =>
    let primary := longestMarket h t
    let normalizedTitle := norm primary.marketTitle false
    let platformCount := (setAddAll (g.map (fun m => m.platform))).length
    let themeKey := classifyMarketThemeWithAux primary.marketTitle
      (primary.category :: primary.description ::
        (primary.tags.getD []).map some)
    { id := normalizedTitle ++ "-" ++ primary.marketId ++ "-" ++
        toString index,
      title := primary.marketTitle,
      normalizedTitle := normalizedTitle,
      themeKey := themeKey,
      platformCount := platformCount,
      markets := sortStable marketLe g }

/-- Materialization of all groups with their map index. -/
def materializeAll (norm : String → Bool → String) :
    List (List ClusterMarket) → Nat → List MarketCluster
  | [], _ => []
  | g :: rest, index =>
    materializeCluster norm g index :: materializeAll norm rest (index + 1)

/-- Top-level cluster ordering, lib/marketClustering.ts line 180: the
comparator sorts by platformCount descending, then member count
descending; a comes before b exactly when the comparator is nonpositive. -/
def clusterLe (a b : MarketCluster) : Bool :=
  decide (b.platformCount < a.platformCount) ||
    (decide (b.platformCount = a.platformCount) &&
      decide (b.markets.length ≤ a.markets.length))

/-- Lookup of a key in an ordered association list of groups, modelling
Map.prototype.get. -/
def lookupGroup {κ α : Type} [DecidableEq κ] (m : List (κ × List α))
    (k : κ) : Option (List α) :=
  (m.find? (fun e => e.1 = k)).map (fun e => e.2)

/-- Membership of a key in an ordered association list. -/
def hasGroup {κ α : Type} [DecidableEq κ] (m : List (κ × List α)) (k : κ) :
    Bool :=
  m.any (fun e => e.1 = k)

/-- Append a value to the group of an existing key (every entry with the
key; the seeds used below have pairwise distinct keys). Models pushing on
the array returned by Map.prototype.get. -/
def appendAt {κ α : Type} [DecidableEq κ] :
    List (κ × List α) → κ → α → List (κ × List α)
  | [], _, _ => []
  | e :: rest, k, x =>
    (if e.1 = k then (e.1, e.2 ++ [x]) else e) :: appendAt rest k x

/-- Theme buckets seeded with one empty list per declared theme,
lib/marketClustering.ts lines 182 to 185. -/
def themeBucketsSeed : List (String × List MarketCluster) :=
  marketThemes.map (fun theme => (theme.key, ([] : List MarketCluster)))

/-- Push of one cluster into the theme buckets, lib/marketClustering.ts
lines 186 to 191: the bucket of the cluster theme key, or the bucket of
other when that key is absent, or no bucket at all (the source then skips
the cluster). -/
def themePush (m : List (String × List MarketCluster))
    (cluster : MarketCluster) : List (String × List MarketCluster) :=
  if hasGroup m cluster.themeKey then appendAt m cluster.themeKey cluster
  else if hasGroup m "other" then appendAt m "other" cluster
  else m

/-- The theme group list, lib/marketClustering.ts lines 193 to 205. -/
def themesOf (buckets : List (String × List MarketCluster)) :
    List ThemeClusterGroup :=
  marketThemes.map (fun theme =>
    let themeClusters := (lookupGroup buckets theme.key).getD []
    { themeKey := theme.key,
      totalClusters := themeClusters.length,
      totalMarkets :=
        themeClusters.foldl (fun sum c => sum + c.markets.length) 0,
      clusters := themeClusters })

/-- Cluster members of the snapshots, lib/marketClustering.ts lines 53
to 66. -/
def clusterMarketsOf (snapshots : List MarketPriceSnapshot) :
    List ClusterMarket :=
  snapshots.map toClusterMarket

/-- Matcher inputs of the snapshots, lib/marketClustering.ts lines 68
to 86. -/
def marketDataOf (snapshots : List MarketPriceSnapshot) : List MarketData :=
  (clusterMarketsOf snapshots).map toMarketData

/-- The candidate scan of one buildClusters run: buckets built from the
market data, scanned from the identity parent array. -/
def scanStateOf (sim : MarketData → MarketData → ℚ)
    (norm : String → Bool → String) (snapshots : List MarketPriceSnapshot) :
    ScanState :=
  candidateScan sim (marketDataOf snapshots).toArray
    (bucketMapOf norm (marketDataOf snapshots))

/-- The pairs on which one buildClusters run invokes the similarity
function, in call order. -/
def scoredPairsOf (sim : MarketData → MarketData → ℚ)
    (norm : String → Bool → String) (snapshots : List MarketPriceSnapshot) :
    List (Nat × Nat) :=
  (scanStateOf sim norm snapshots).scored

/-- The root groups of one buildClusters run (pre-sort member lists, in
input order within each group), lib/marketClustering.ts lines 147 to 156. -/
def clusterGroupsOf (sim : MarketData → MarketData → ℚ)
    (norm : String → Bool → String) (snapshots : List MarketPriceSnapshot) :
    List (List ClusterMarket) :=
  ((groupByRoot (scanStateOf sim norm snapshots).parent
      (clusterMarketsOf snapshots)).1).map (fun e => e.2)

/-- Full clustering run, lib/marketClustering.ts buildClusters, composed
from the stages above: empty input short-circuits; otherwise bucket, scan,
union, materialize, sort, and group by theme. -/
def buildClusters (sim : MarketData → MarketData → ℚ)
    (norm : String → Bool → String) (snapshots : List MarketPriceSnapshot) :
    List MarketCluster × List ThemeClusterGroup :=
  if snapshots = [] then ([], [])
  else
    let clusters := materializeAll norm (clusterGroupsOf sim norm snapshots) 0
    let sorted := sortStable clusterLe clusters
    let themes := themesOf (sorted.foldl themePush themeBucketsSeed)
    (sorted, themes)

/-- A JavaScript numeric candidate as tested by the normalizers of
lib/marketSources.ts: nullish (null or undefined), a non-finite number
(NaN or an infinity, including strings that fail to parse), or a finite
number. String inputs are modelled by the value that parseFloat produces
for them. -/
inductive JsValue
  | nullish
  | notFinite
  | fin (q : ℚ)
deriving DecidableEq, Repr, Inhabited

/-- Price normalization, lib/marketSources.ts normalizePrice: nullish and
non-finite inputs are rejected, negative values are rejected, values in
the interval (1, 100] are rescaled from the 0-100 convention, values above
100 are rejected, remaining values pass through. -/
def normalizePrice : JsValue → Option ℚ
  | .nullish => none
  | .notFinite => none
  | .fin parsed =>
    if parsed < 0 then none
    else if 1 < parsed ∧ parsed ≤ 100 then some (parsed / 100)
    else if 1 < parsed then none
    else some parsed

/-- Timestamp normalization, lib/marketSources.ts normalizeTimestamp: the
now argument models Date.now() at the call. -/
def normalizeTimestamp (now : ℚ) : JsValue → ℚ
  | .nullish => now
  | .notFinite => now
  | .fin parsed =>
    if parsed < 1000000000000 then parsed * 1000 else parsed

/-- One raw record of the Polymarket markets payload as consumed by
fetchPolymarketPrices, lib/marketSources.ts lines 128 to 159. The priceRaw
field models the resolved value of the nullish-coalescing chain over
yes_price, yesPrice, price, probability, last_price and the outcome
fields; updatedRaw models the chain over the update-time fields; id,
question and slug model the corresponding optional string fields. -/
structure PolymarketRecord where
  priceRaw : JsValue
  id : Option String
  question : Option String
  slug : Option String
  updatedRaw : JsValue
deriving DecidableEq, Repr, Inhabited

/-- Polymarket market URL, lib/links.ts platformUrls.polymarket, a
collaborator that renders the slug into a URL; its exact shape is
irrelevant to every property proved here. -/
def polymarketUrl (slug : String) : String :=
  "https://polymarket.com/market/" ++ slug

/-- Mapping of one raw Polymarket record, lib/marketSources.ts lines 129
to 158: a record whose price does not normalize is mapped to null. -/
def snapshotOfPolymarket (now : ℚ) (record : PolymarketRecord) :
    Option MarketPriceSnapshot :=
  match normalizePrice record.priceRaw with
  | none => none
  | some price =>
    some
      { platform := .polymarket,
        marketId := record.id.getD (record.slug.getD "unknown"),
        marketTitle := record.question.getD (record.slug.getD "Unknown"),
        price := price,
        updatedAt := normalizeTimestamp now record.updatedRaw,
        url := record.slug.map polymarketUrl }

/-- The Polymarket fetcher body after the HTTP layer, lib/marketSources.ts
lines 128 to 159: map each record, then drop the null entries. -/
def fetchPolymarketPrices (now : ℚ) (records : List PolymarketRecord) :
    List MarketPriceSnapshot :=
  ((records.map (snapshotOfPolymarket now)).filter
    (fun item => item ≠ none)).filterMap id

/-- Status of one platform source, lib/types.ts PlatformSourceStatus. -/
inductive PlatformSourceStatus
  | live
  | error
deriving DecidableEq, Repr, Inhabited

/-- Per-source status entry, lib/types.ts PlatformSourceState. -/
structure PlatformSourceState where
  status : PlatformSourceStatus
  error : Option String := none
deriving DecidableEq, Repr, Inhabited

/-- Settled outcome of one upstream fetch: the fulfilled snapshot list or
the rejection, carrying the message that sanitizeError (lib/security.ts, a
collaborator) produces from the thrown value. -/
inductive FetchOutcome
  | ok (data : List MarketPriceSnapshot)
  | err (msg : String)
deriving DecidableEq, Repr, Inhabited

/-- Environment of one platform during one aggregation run,
app/api/markets/route.ts: the platformCache entry (data with its
expiresAt), the settled outcome of an already in-flight promise when one
exists, and the settled outcome of a fresh fetcher call. -/
structure PlatformEnv where
  cached : Option (List MarketPriceSnapshot × ℚ)
  inflight : Option FetchOutcome
  fetch : FetchOutcome
deriving DecidableEq, Repr, Inhabited

/-- Result of the per-platform branch of fetchMarkets, the object literal
produced by app/api/markets/route.ts lines 88 to 120. -/
structure SourceResult where
  platform : PlatformSource
  status : PlatformSourceStatus
  error : Option String
  data : List MarketPriceSnapshot
deriving DecidableEq, Repr, Inhabited

/-- Per-platform branch of fetchMarkets, app/api/markets/route.ts lines 88
to 120: serve a fresh cache entry as live; else join an in-flight promise
(its rejection yields an error with no data); else run the fetcher, and on
rejection fall back to the cache entry regardless of its age, attaching
the cached data to the error result when one exists. -/
def fetchPlatformMiss (env : PlatformEnv) (platform : PlatformSource) :
    SourceResult :=
  match env.inflight with
  | some (.ok data) =>
    { platform := platform, status := .live, error := none, data := data }
  | some (.err e) =>
    { platform := platform, status := .error, error := some e, data := [] }
  | none =>
    match env.fetch with
    | .ok data =>
      { platform := platform, status := .live, error := none, data := data }
    | .err e =>
      match env.cached with
      | some (data, _) =>
        { platform := platform, status := .error, error := some e,
          data := data }
      | none =>
        { platform := platform, status := .error, error := some e,
          data := [] }

def fetchPlatform (now : ℚ) (env : PlatformEnv) (platform : PlatformSource) :
    SourceResult :=
  match env.cached with
  | some (data, expiresAt) =>
    if now < expiresAt then
      { platform := platform, status := .live, error := none, data := data }
    else fetchPlatformMiss env platform
  | none => fetchPlatformMiss env platform

/-- Platforms of the aggregation fan-out: the keys of platformFetchers
(lib/marketSources.ts lines 266 to 271) in insertion order. The limitless
platform has a TTL entry but no fetcher, so it does not take part. -/
def platformsList : List PlatformSource :=
  [.opinion, .kalshi, .polymarket, .predictfun]

/-- Overwrite of the state of one platform in the sources record. -/
def setState (m : List (PlatformSource × PlatformSourceState))
    (p : PlatformSource) (s : PlatformSourceState) :
    List (PlatformSource × PlatformSourceState) :=
  m.map (fun e => if e.1 = p then (e.1, s) else e)

/-- Cross-platform markets response, lib/types.ts MarketsResponse; the
sources record is modelled as an association list over the platforms. -/
structure MarketsResponse where
  updatedAt : ℚ
  stale : Bool
  list : List MarketPriceSnapshot
  clusters : List MarketCluster
  themes : List ThemeClusterGroup
  sources : List (PlatformSource × PlatformSourceState)
  error : Option String := none
deriving DecidableEq, Repr, Inhabited

/-- Body of the results.forEach of route.ts lines 123 to 134: a live
result marks its source live and appends its data to the merged list, an
error result marks its source with the error and appends nothing. -/
def mergeStep
    (acc : List (PlatformSource × PlatformSourceState) ×
      List MarketPriceSnapshot) (r : SourceResult) :
    List (PlatformSource × PlatformSourceState) × List MarketPriceSnapshot :=
  match r.status with
  | .live => (setState acc.1 r.platform { status := .live }, acc.2 ++ r.data)
  | .error =>
    (setState acc.1 r.platform { status := .error, error := r.error }, acc.2)

/-- One aggregation run, app/api/markets/route.ts fetchMarkets (lines 74
to 152): fan out over the platforms, initialize every source status to
error, fold the merge step over the settled per-platform results, cluster
the merged list and annotate an empty merge with the top-level error
string. Every per-platform branch catches its rejection, so the run as a
whole is a total function of the per-platform environments. -/
def fetchMarkets (sim : MarketData → MarketData → ℚ)
    (norm : String → Bool → String) (now : ℚ)
    (env : PlatformSource → PlatformEnv) : MarketsResponse :=
  let results := platformsList.map (fun p => fetchPlatform now (env p) p)
  let init : List (PlatformSource × PlatformSourceState) ×
      List MarketPriceSnapshot :=
    (platformsList.map (fun p => (p, { status := .error })), [])
  let merged := results.foldl mergeStep init
  let bc := buildClusters sim norm merged.2
  { updatedAt := now,
    stale := false,
    list := merged.2,
    clusters := bc.1,
    themes := bc.2,
    sources := merged.1,
    error :=
      if merged.2 = [] then some "No market data returned from sources"
      else none }

/-- Per-source cache state as seen by one arriving caller of the
single-flight block, app/api/markets/route.ts lines 88 to 120: whether the
platformCache entry is fresh, whether a platformInflight promise exists,
and how many upstream fetcher calls have been issued. One arrival runs the
branch synchronously up to its first await, so the check of the in-flight
map and the insertion into it are atomic under the JavaScript
run-to-completion model. -/
structure SingleFlightState where
  cacheFresh : Bool
  inflight : Bool
  fetchCount : Nat
deriving DecidableEq, Repr, Inhabited

/-- Effect of one arriving caller on the per-source state: a fresh cache
answers immediately, an existing in-flight promise is joined, and only
otherwise is the fetcher invoked and the in-flight handle installed. -/
def sfArrive (s : SingleFlightState) : SingleFlightState :=
  if s.cacheFresh then s
  else if s.inflight then s
  else { s with inflight := true, fetchCount := s.fetchCount + 1 }



/-- Spec-side keyword hit (section 4.6 of the spec): a multi-word keyword
matches as a literal substring of the lower-cased full title, a single-word
keyword matches only as an exact token of the tokenized title. -/
def specKeywordHit (title keyword : String) : Bool :=
  if strIncludes keyword " " then strIncludes (strToLower title) keyword
  else (tokenizeTitle title).contains keyword

/-- Spec-side classification (section 4.6 of the spec): the first theme in
declared priority order with any keyword hit wins, falling through to the
catch-all key other when nothing matches. -/
def firstHitTheme (title : String) : List MarketTheme → String
  | [] => "other"
  | th :: rest =>
    if th.keywords.any (fun kw => specKeywordHit title kw) then th.key
    else firstHitTheme title rest

/-- Spec-side classification over the declared taxonomy. -/
def specClassify (title : String) : String :=
  firstHitTheme title marketThemes

theorem list_any_congr {α : Type} (l : List α) (f g : α → Bool)
    (h : ∀ x ∈ l, f x = g x) : l.any f = l.any g := by
  induction l with
  | nil => rfl
  | cons x xs ih =>
    simp only [List.any_cons, h x (by simp), ih fun y hy => h y (by simp [hy])]

theorem classifyGo_eq_firstHit (title : String) :
    ∀ themes : List MarketTheme,
    (∀ th ∈ themes, th.key = "other" → th.keywords = []) →
    (∀ th ∈ themes, ∀ kw ∈ th.keywords, strToLower kw = kw) →
    classifyGo (strToLower title) (tokenizeTitle title) themes =
      firstHitTheme title themes := by
  intro themes
  induction themes with
  | nil => intro _ _; rfl
  | cons th rest ih =>
    intro h1 h2
    have hany : th.keywords.any
        (fun kw => matchesKeyword (strToLower title) (tokenizeTitle title) kw) =
        th.keywords.any (fun kw => specKeywordHit title kw) := by
      refine list_any_congr _ _ _ fun kw hkw => ?_
      have hfix : strToLower kw = kw := h2 th (by simp) kw hkw
      simp only [matchesKeyword, specKeywordHit, hfix]
    have ihr := ih (fun t ht hk => h1 t (by simp [ht]) hk)
      (fun t ht kw hkw => h2 t (by simp [ht]) kw hkw)
    by_cases hkey : th.key = "other"
    · have hkw0 : th.keywords = [] := h1 th (by simp) hkey
      have hleft : classifyGo (strToLower title) (tokenizeTitle title)
          (th :: rest) =
          classifyGo (strToLower title) (tokenizeTitle title) rest := by
        simp [classifyGo, hkey]
      have hright : firstHitTheme title (th :: rest) =
          firstHitTheme title rest := by
        simp [firstHitTheme, hkw0]
      rw [hleft, hright, ihr]
    · have hkeyb : (th.key == "other") = false := by simp [hkey]
      by_cases hhit : th.keywords.any (fun kw => specKeywordHit title kw) = true
      · have hleft : classifyGo (strToLower title) (tokenizeTitle title)
            (th :: rest) = th.key := by
          simp [classifyGo, hkeyb, hany, hhit]
        have hright : firstHitTheme title (th :: rest) = th.key := by
          simp [firstHitTheme, hhit]
        rw [hleft, hright]
      · have hhit' : th.keywords.any (fun kw => specKeywordHit title kw) =
            false := by simpa using hhit
        have hleft : classifyGo (strToLower title) (tokenizeTitle title)
            (th :: rest) =
            classifyGo (strToLower title) (tokenizeTitle title) rest := by
          simp [classifyGo, hkeyb, hany, hhit']
        have hright : firstHitTheme title (th :: rest) =
            firstHitTheme title rest := by
          simp [firstHitTheme, hhit']
        rw [hleft, hright, ihr]

theorem classifyGo_mem (nt : String) (tk : List String) :
    ∀ themes : List MarketTheme,
    classifyGo nt tk themes = "other" ∨
      classifyGo nt tk themes ∈ themes.map (fun th => th.key) := by
  intro themes
  induction themes with
  | nil => exact Or.inl rfl
  | cons th rest ih =>
    by_cases hkey : (th.key == "other") = true
    · have hleft : classifyGo nt tk (th :: rest) = classifyGo nt tk rest := by
        simp [classifyGo, hkey]
      rw [hleft]
      rcases ih with h | h
      · exact Or.inl h
      · rw [List.map_cons]; exact Or.inr (List.mem_cons_of_mem _ h)
    · have hkeyb : (th.key == "other") = false := by simpa using hkey
      by_cases hhit : th.keywords.any (fun kw => matchesKeyword nt tk kw) = true
      · have hleft : classifyGo nt tk (th :: rest) = th.key := by
          simp [classifyGo, hkeyb, hhit]
        rw [hleft, List.map_cons]
        exact Or.inr (List.mem_cons_self _ _)
      · have hhit' : th.keywords.any (fun kw => matchesKeyword nt tk kw) =
            false := by simpa using hhit
        have hleft : classifyGo nt tk (th :: rest) = classifyGo nt tk rest := by
          simp [classifyGo, hkeyb, hhit']
        rw [hleft]
        rcases ih with h | h
        · exact Or.inl h
        · rw [List.map_cons]; exact Or.inr (List.mem_cons_of_mem _ h)

/-- C6: classifyMarketTheme is total, equals the spec-side classification
(the key of the first theme in declared priority order with a keyword hit,
single-word keywords matching only as exact tokens of the tokenized title
and multi-word keywords as literal substrings of the lower-cased title,
with fall-through to the catch-all key other), and always returns one of
the declared theme keys. -/
theorem classifyMarketTheme_first_hit_total (title : String) :
    classifyMarketTheme title = specClassify title ∧
    classifyMarketTheme title ∈ marketThemes.map (fun th => th.key) := by
  constructor
  · exact classifyGo_eq_firstHit title marketThemes (by decide) (by decide)
  · rcases classifyGo_mem (strToLower title) (tokenizeTitle title)
      marketThemes with h | h
    · have h' : classifyMarketTheme title = "other" := h
      rw [h']; decide
    · exact h

/-- Concrete similarity function for closed instances: the constant zero
(no candidate pair ever reaches a threshold). -/
def concreteSim : MarketData → MarketData → ℚ :=
  fun _ _ => 0

/-- Concrete title normalizer for closed instances: plain lower-casing for
either value of the aggressive flag. -/
def concreteNorm : String → Bool → String :=
  fun s _ => strToLower s

/-- Snapshot with a neutral title and a crypto category. -/
def c5CryptoSnap : MarketPriceSnapshot :=
  { platform := .opinion, marketId := "a1", marketTitle := "Season finale",
    price := 1, updatedAt := 0, category := some "crypto" }

/-- Snapshot with the same title and a sports category. -/
def c5SportsSnap : MarketPriceSnapshot :=
  { platform := .opinion, marketId := "a1", marketTitle := "Season finale",
    price := 1, updatedAt := 0, category := some "nfl" }

/-- C5: the auxiliary text fields passed at the classification call site of
buildClusters never influence the assigned theme key, because the declared
classifyMarketTheme binds only the title: two runs on snapshots with equal
titles whose categories differ (and would classify differently if read)
produce identical theme keys. -/
theorem theme_ignores_auxiliary_fields :
    classifyMarketThemeWithAux "Season finale" [some "crypto", none] =
      classifyMarketThemeWithAux "Season finale" [some "nfl", none]
    ∧ classifyMarketThemeWithAux "Season finale" [some "crypto", none] =
      "other"
    ∧ classifyMarketTheme "crypto" = "crypto"
    ∧ classifyMarketTheme "nfl" = "sports"
    ∧ (buildClusters concreteSim concreteNorm [c5CryptoSnap]).1.map
        (fun c => c.themeKey) =
      (buildClusters concreteSim concreteNorm [c5SportsSnap]).1.map
        (fun c => c.themeKey)
    ∧ c5CryptoSnap.marketTitle = c5SportsSnap.marketTitle
    ∧ c5CryptoSnap.category ≠ c5SportsSnap.category := by
  refine ⟨rfl, by decide, by decide, by decide, by decide, rfl, by decide⟩

/-- Cached snapshot for the stale-fallback scenario. -/
def c1CachedSnap : MarketPriceSnapshot :=
  { platform := .opinion, marketId := "cached-1",
    marketTitle := "Cached market", price := 1, updatedAt := 0 }

/-- Environment for the stale-fallback scenario: the opinion platform has
an expired cache entry and a failing fetcher, every other platform fails
with no cache. -/
def c1Env : PlatformSource → PlatformEnv
  | .opinion =>
    { cached := some ([c1CachedSnap], 5), inflight := none,
      fetch := .err "upstream down" }
  | _ => { cached := none, inflight := none, fetch := .err "upstream down" }

/-- C1: when a fetch fails and an expired cache entry exists, the
per-platform branch attaches the cached snapshots to its error result, yet
the merge loop of fetchMarkets appends data only for live results, so the
cached snapshots never reach the merged list and the run reports no market
data at all. -/
theorem cached_fallback_never_merged :
    (fetchPlatform 10 (c1Env .opinion) .opinion).status = .error
    ∧ (fetchPlatform 10 (c1Env .opinion) .opinion).data = [c1CachedSnap]
    ∧ (fetchMarkets concreteSim concreteNorm 10 c1Env).list = []
    ∧ (fetchMarkets concreteSim concreteNorm 10 c1Env).error =
      some "No market data returned from sources" := by
  refine ⟨by decide, by decide, by decide, by decide⟩

/-- C9: within one cache-miss window (the cache not fresh, no fetch in
flight, no settlement in between), any positive number of arriving callers
issues exactly one upstream fetch: the first arrival installs the
in-flight handle, every later arrival joins it. -/
theorem single_flight_one_upstream_call (c n : Nat) :
    (sfArrive^[n + 1]
      { cacheFresh := false, inflight := false, fetchCount := c }).fetchCount
      = c + 1 := by
  have hstep : sfArrive
      { cacheFresh := false, inflight := false, fetchCount := c } =
      { cacheFresh := false, inflight := true, fetchCount := c + 1 } := rfl
  have hfix : ∀ (m k : Nat), sfArrive^[m]
      { cacheFresh := false, inflight := true, fetchCount := k } =
      { cacheFresh := false, inflight := true, fetchCount := k } := by
    intro m k
    induction m with
    | zero => rfl
    | succ m ih =>
      rw [Function.iterate_succ_apply]
      exact ih
  rw [Function.iterate_succ_apply, hstep, hfix]

theorem filter_ne_none_filterMap {α β : Type} [DecidableEq β]
    (f : α → Option β) (l : List α) :
    ((l.map f).filter (fun o => o ≠ none)).filterMap id = l.filterMap f := by
  induction l with
  | nil => rfl
  | cons x xs ih =>
    simp only [ne_eq, decide_not] at ih ⊢
    cases hfx : f x with
    | none => simp [hfx, ih, List.filterMap_cons]
    | some y => simp [hfx, ih, List.filterMap_cons]

/-- C8: normalizePrice yields either none or a value in the unit interval
(values in the interval (1, 100] are rescaled by one hundred; negative,
above-100, nullish and non-finite inputs yield none), the Polymarket
fetcher drops exactly the records whose price normalizes to none, and in
consequence every emitted snapshot carries a price in the unit interval. -/
theorem normalizePrice_range_and_drop :
    (∀ q : ℚ, 1 < q → q ≤ 100 → normalizePrice (.fin q) = some (q / 100))
    ∧ (∀ q : ℚ, q < 0 → normalizePrice (.fin q) = none)
    ∧ (∀ q : ℚ, 100 < q → normalizePrice (.fin q) = none)
    ∧ normalizePrice .nullish = none
    ∧ normalizePrice .notFinite = none
    ∧ (∀ (v : JsValue) (q : ℚ), normalizePrice v = some q → 0 ≤ q ∧ q ≤ 1)
    ∧ (∀ (now : ℚ) (records : List PolymarketRecord),
        fetchPolymarketPrices now records =
          records.filterMap (fun r => snapshotOfPolymarket now r))
    ∧ (∀ (now : ℚ) (r : PolymarketRecord),
        normalizePrice r.priceRaw = none → snapshotOfPolymarket now r = none)
    ∧ (∀ (now : ℚ) (records : List PolymarketRecord)
        (s : MarketPriceSnapshot), s ∈ fetchPolymarketPrices now records →
        0 ≤ s.price ∧ s.price ≤ 1) := by
  have hrange : ∀ (v : JsValue) (q : ℚ), normalizePrice v = some q →
      0 ≤ q ∧ q ≤ 1 := by
    intro v q h
    cases v with
    | nullish => exact Option.noConfusion h
    | notFinite => exact Option.noConfusion h
    | fin x =>
      simp only [normalizePrice] at h
      by_cases h1 : x < 0
      · rw [if_pos h1] at h; exact Option.noConfusion h
      · rw [if_neg h1] at h
        by_cases h2 : 1 < x ∧ x ≤ 100
        · rw [if_pos h2] at h
          obtain ⟨hgt, hle⟩ := h2
          obtain rfl : q = x / 100 := (Option.some.inj h).symm
          constructor
          · exact div_nonneg (by linarith) (by norm_num)
          · rw [div_le_one (by norm_num)]; exact hle
        · rw [if_neg h2] at h
          by_cases h3 : 1 < x
          · rw [if_pos h3] at h; exact Option.noConfusion h
          · rw [if_neg h3] at h
            obtain rfl : q = x := (Option.some.inj h).symm
            exact ⟨by linarith [not_lt.mp h1], not_lt.mp h3⟩
  have hfm : ∀ (now : ℚ) (records : List PolymarketRecord),
      fetchPolymarketPrices now records =
        records.filterMap (fun r => snapshotOfPolymarket now r) := by
    intro now records
    exact filter_ne_none_filterMap _ _
  refine ⟨?_, ?_, ?_, rfl, rfl, hrange, hfm, ?_, ?_⟩
  · intro q h1 h2
    simp only [normalizePrice]
    rw [if_neg (by linarith), if_pos ⟨h1, h2⟩]
  · intro q h
    simp only [normalizePrice]
    rw [if_pos h]
  · intro q h
    simp only [normalizePrice]
    rw [if_neg (by linarith), if_neg (by rintro ⟨_, h2⟩; linarith),
      if_pos (by linarith)]
  · intro now r h
    simp [snapshotOfPolymarket, h]
  · intro now records s hs
    rw [hfm] at hs
    rcases List.mem_filterMap.mp hs with ⟨r, _, hr⟩
    simp only [snapshotOfPolymarket] at hr
    rcases hnp : normalizePrice r.priceRaw with _ | price
    · rw [hnp] at hr; exact Option.noConfusion hr
    · rw [hnp] at hr
      have hsp : s.price = price := by
        have hinj := Option.some.inj hr
        rw [← hinj]
      rw [hsp]
      exact hrange _ _ hnp

/-- Witness for C8 at concrete inputs: 55 rescales to 55/100, and the
pass-through value one is within the unit interval. -/
theorem normalizePrice_range_and_drop_witness :
    ((1 : ℚ) < 55 ∧ (55 : ℚ) ≤ 100 ∧
      normalizePrice (.fin 55) = some (55 / 100)) ∧
    (normalizePrice (.fin 1) = some 1 ∧ (0 : ℚ) ≤ 1 ∧ (1 : ℚ) ≤ 1) :=
  ⟨⟨by decide, by decide,
      normalizePrice_range_and_drop.1 55 (by decide) (by decide)⟩,
    ⟨by decide,
      (normalizePrice_range_and_drop.2.2.2.2.2.1 (.fin 1) 1 (by decide)).1,
      (normalizePrice_range_and_drop.2.2.2.2.2.1 (.fin 1) 1 (by decide)).2⟩⟩

/-- Status entry a source receives in the merged response for a given fetch
outcome. -/
def sourceStateOfFetch : FetchOutcome → PlatformSourceState
  | .ok _ => { status := .live }
  | .err e => { status := .error, error := some e }

/-- Snapshots a fetch outcome contributes to the merged list: the data of a
fulfilled fetch, nothing for a rejected one. -/
def fulfilledData : FetchOutcome → List MarketPriceSnapshot
  | .ok d => d
  | .err _ => []

/-- Status entry written by the merge step for one per-platform result. -/
def resultState (r : SourceResult) : PlatformSourceState :=
  match r.status with
  | .live => { status := .live }
  | .error => { status := .error, error := r.error }

/-- Data appended to the merged list by the merge step for one result. -/
def resultData (r : SourceResult) : List MarketPriceSnapshot :=
  match r.status with
  | .live => r.data
  | .error => []

theorem mergeStep_eq (acc : List (PlatformSource × PlatformSourceState) ×
    List MarketPriceSnapshot) (r : SourceResult) :
    mergeStep acc r =
      (setState acc.1 r.platform (resultState r), acc.2 ++ resultData r) := by
  cases hs : r.status with
  | live => simp [mergeStep, resultState, resultData, hs]
  | error => simp [mergeStep, resultState, resultData, hs]

theorem foldl_mergeStep_snd (results : List SourceResult) :
    ∀ acc : List (PlatformSource × PlatformSourceState) ×
      List MarketPriceSnapshot,
    (results.foldl mergeStep acc).2 =
      acc.2 ++ (results.map resultData).flatten := by
  induction results with
  | nil => intro acc; simp
  | cons r rest ih =>
    intro acc
    rw [List.foldl_cons, ih, mergeStep_eq]
    simp [List.append_assoc]

theorem foldl_mergeStep_fst (results : List SourceResult) :
    ∀ acc : List (PlatformSource × PlatformSourceState) ×
      List MarketPriceSnapshot,
    (results.foldl mergeStep acc).1 =
      results.foldl (fun m r => setState m r.platform (resultState r))
        acc.1 := by
  induction results with
  | nil => intro acc; rfl
  | cons r rest ih =>
    intro acc
    rw [List.foldl_cons, ih, mergeStep_eq, List.foldl_cons]

theorem fetchPlatform_fetch_path (now : ℚ) (env : PlatformEnv)
    (p : PlatformSource) (hinf : env.inflight = none)
    (hcache : ∀ d e, env.cached = some (d, e) → e ≤ now) :
    fetchPlatform now env p =
      (match env.fetch with
      | .ok d => { platform := p, status := .live, error := none, data := d }
      | .err e =>
        { platform := p, status := .error, error := some e,
          data := (match env.cached with
            | some (d, _) => d
            | none => []) }) := by
  have hmiss : fetchPlatformMiss env p =
      (match env.fetch with
      | .ok d => { platform := p, status := .live, error := none, data := d }
      | .err e =>
        { platform := p, status := .error, error := some e,
          data := (match env.cached with
            | some (d, _) => d
            | none => []) }) := by
    rw [fetchPlatformMiss, hinf]
    cases env.fetch with
    | ok d => rfl
    | err e =>
      cases hc : env.cached with
      | none => rfl
      | some de => cases de with
        | mk d ex => rfl
  cases hc : env.cached with
  | none =>
    rw [hc] at hmiss
    calc fetchPlatform now env p = fetchPlatformMiss env p := by
          rw [fetchPlatform, hc]
      _ = _ := hmiss
  | some de =>
    obtain ⟨d, ex⟩ := de
    have hle : ex ≤ now := hcache d ex hc
    rw [hc] at hmiss
    calc fetchPlatform now env p = fetchPlatformMiss env p := by
          rw [fetchPlatform, hc]
          exact if_neg (not_lt.mpr hle)
      _ = _ := hmiss

/-- C2: when every platform reaches its fetcher (no fresh cache, no
in-flight promise), the aggregation result is a total function that merges
exactly the fulfilled fetches' snapshots, in platform order, and marks
exactly the rejected fetches' sources as error with their message while
every fulfilled source is marked live; one source's rejection never
removes another source's contribution. -/
theorem aggregation_bulkhead (sim : MarketData → MarketData → ℚ)
    (norm : String → Bool → String) (now : ℚ)
    (env : PlatformSource → PlatformEnv)
    (hinf : ∀ p ∈ platformsList, (env p).inflight = none)
    (hcache : ∀ p ∈ platformsList, ∀ d e,
      (env p).cached = some (d, e) → e ≤ now) :
    (fetchMarkets sim norm now env).list =
      (platformsList.map (fun p => fulfilledData (env p).fetch)).flatten
    ∧ (fetchMarkets sim norm now env).sources =
      platformsList.map (fun p => (p, sourceStateOfFetch (env p).fetch)) := by
  have hres : ∀ p ∈ platformsList,
      resultData (fetchPlatform now (env p) p) = fulfilledData (env p).fetch ∧
      resultState (fetchPlatform now (env p) p) =
        sourceStateOfFetch (env p).fetch ∧
      (fetchPlatform now (env p) p).platform = p := by
    intro p hp
    rw [fetchPlatform_fetch_path now (env p) p (hinf p hp) (hcache p hp)]
    cases (env p).fetch with
    | ok d => exact ⟨rfl, rfl, rfl⟩
    | err e =>
      refine ⟨rfl, rfl, ?_⟩
      cases (env p).cached with
      | none => rfl
      | some de => cases de with
        | mk d ex => rfl
  constructor
  · show (((platformsList.map (fun p => fetchPlatform now (env p) p)).foldl
      mergeStep (platformsList.map
        (fun p => (p, ({ status := .error } : PlatformSourceState))), [])).2)
      = _
    rw [foldl_mergeStep_snd]
    rw [List.nil_append, List.map_map]
    congr 1
    refine List.map_congr_left fun p hp => ?_
    exact (hres p hp).1
  · show (((platformsList.map (fun p => fetchPlatform now (env p) p)).foldl
      mergeStep (platformsList.map
        (fun p => (p, ({ status := .error } : PlatformSourceState))), [])).1)
      = _
    rw [foldl_mergeStep_fst, List.foldl_map]
    have hfold : platformsList.foldl
        (fun m p => setState m (fetchPlatform now (env p) p).platform
          (resultState (fetchPlatform now (env p) p)))
        (platformsList.map
          (fun p => (p, ({ status := .error } : PlatformSourceState)))) =
        platformsList.foldl
        (fun m p => setState m p (sourceStateOfFetch (env p).fetch))
        (platformsList.map
          (fun p => (p, ({ status := .error } : PlatformSourceState)))) := by
      have hcong : ∀ p ∈ platformsList,
          ∀ m : List (PlatformSource × PlatformSourceState),
          setState m (fetchPlatform now (env p) p).platform
            (resultState (fetchPlatform now (env p) p)) =
          setState m p (sourceStateOfFetch (env p).fetch) := by
        intro p hp m
        rw [(hres p hp).2.2, (hres p hp).2.1]
      simp only [platformsList, List.foldl_cons, List.foldl_nil] at *
      rw [hcong .opinion (by simp) _, hcong .kalshi (by simp) _,
        hcong .polymarket (by simp) _, hcong .predictfun (by simp) _]
    rw [hfold]
    show platformsList.foldl
        (fun m p => setState m p (sourceStateOfFetch (env p).fetch))
        [(PlatformSource.opinion, { status := .error }),
          (.kalshi, { status := .error }),
          (.polymarket, { status := .error }),
          (.predictfun, { status := .error })] = _
    simp only [platformsList, List.foldl_cons, List.foldl_nil, List.map_cons,
      List.map_nil, setState]
    simp

/-- Snapshot returned by the one healthy source in the witness run. -/
def c2Snap : MarketPriceSnapshot :=
  { platform := .opinion, marketId := "w1", marketTitle := "Witness market",
    price := 1, updatedAt := 0 }

/-- Witness environment: the opinion fetcher fulfills with one snapshot,
every other fetcher rejects; no caches, no in-flight promises. -/
def c2Env : PlatformSource → PlatformEnv
  | .opinion => { cached := none, inflight := none, fetch := .ok [c2Snap] }
  | _ => { cached := none, inflight := none, fetch := .err "upstream down" }

/-- Witness for C2: in the concrete mixed run the hypotheses hold, the
merged list is exactly the healthy source's snapshot, and the source
states mark exactly the rejected fetchers as errors. -/
theorem aggregation_bulkhead_witness :
    (∀ p ∈ platformsList, (c2Env p).inflight = none)
    ∧ (∀ p ∈ platformsList, ∀ d e,
        (c2Env p).cached = some (d, e) → e ≤ (10 : ℚ))
    ∧ (fetchMarkets concreteSim concreteNorm 10 c2Env).list =
      (platformsList.map (fun p => fulfilledData (c2Env p).fetch)).flatten
    ∧ (fetchMarkets concreteSim concreteNorm 10 c2Env).sources =
      platformsList.map (fun p => (p, sourceStateOfFetch (c2Env p).fetch))
    ∧ (fetchMarkets concreteSim concreteNorm 10 c2Env).list = [c2Snap] := by
  have h1 : ∀ p ∈ platformsList, (c2Env p).inflight = none := by decide
  have h2 : ∀ p ∈ platformsList, ∀ d e,
      (c2Env p).cached = some (d, e) → e ≤ (10 : ℚ) := by
    intro p _ d e h
    cases p <;> exact Option.noConfusion h
  have hmain := aggregation_bulkhead concreteSim concreteNorm 10 c2Env h1 h2
  exact ⟨h1, h2, hmain.1, hmain.2, by decide⟩

theorem insertStable_perm {α : Type} (le : α → α → Bool) (x : α)
    (l : List α) : (insertStable le x l).Perm (x :: l) := by
  induction l with
  | nil => exact List.Perm.refl _
  | cons y ys ih =>
    by_cases h : le x y = true
    · simp only [insertStable, if_pos h]
      exact List.Perm.refl _
    · simp only [insertStable, if_neg h]
      exact (ih.cons y).trans (List.Perm.swap x y ys)

theorem sortStable_perm {α : Type} (le : α → α → Bool) (l : List α) :
    (sortStable le l).Perm l := by
  induction l with
  | nil => exact List.Perm.refl _
  | cons x xs ih =>
    exact (insertStable_perm le x (sortStable le xs)).trans (ih.cons x)

theorem upsertAppend_flatten {κ α : Type} [DecidableEq κ]
    (m : List (κ × List α)) (k : κ) (x : α) :
    (((upsertAppend m k x).map Prod.snd).flatten).Perm
      ((m.map Prod.snd).flatten ++ [x]) := by
  induction m with
  | nil => simp [upsertAppend]
  | cons e rest ih =>
    obtain ⟨k', v⟩ := e
    by_cases hk : k' = k
    · simp only [upsertAppend, if_pos hk, List.map_cons, List.flatten_cons]
      have h1 : (v ++ [x]) ++ (rest.map Prod.snd).flatten =
          v ++ ([x] ++ (rest.map Prod.snd).flatten) := by
        rw [List.append_assoc]
      rw [h1]
      have h2 : ([x] ++ (rest.map Prod.snd).flatten).Perm
          ((rest.map Prod.snd).flatten ++ [x]) := List.perm_append_comm
      exact ((List.Perm.append_left v h2).trans
        (by rw [← List.append_assoc])).trans (List.Perm.refl _)
    · simp only [upsertAppend, if_neg hk, List.map_cons, List.flatten_cons]
      have h2 := List.Perm.append_left v ih
      have h3 : v ++ ((rest.map Prod.snd).flatten ++ [x]) =
          (v ++ (rest.map Prod.snd).flatten) ++ [x] := by
        rw [List.append_assoc]
      rw [h3] at h2
      exact h2

theorem upsertAppend_values_ne_nil {κ α : Type} [DecidableEq κ]
    (m : List (κ × List α)) (k : κ) (x : α)
    (h : ∀ e ∈ m, e.2 ≠ []) : ∀ e ∈ upsertAppend m k x, e.2 ≠ [] := by
  induction m with
  | nil =>
    intro e he
    simp only [upsertAppend, List.mem_singleton] at he
    subst he
    simp
  | cons hd rest ih =>
    obtain ⟨k', v⟩ := hd
    by_cases hk : k' = k
    · intro e he
      simp only [upsertAppend, if_pos hk, List.mem_cons] at he
      rcases he with rfl | he
      · simp
      · exact h e (List.mem_cons_of_mem _ he)
    · intro e he
      simp only [upsertAppend, if_neg hk, List.mem_cons] at he
      rcases he with rfl | he
      · exact h (k', v) (List.mem_cons_self _ _)
      · exact ih (fun e' he' => h e' (List.mem_cons_of_mem _ he')) e he

theorem upsertAppend_sublist {κ α : Type} [DecidableEq κ]
    (m : List (κ × List α)) (k : κ) (x : α) (done : List α)
    (h : ∀ e ∈ m, e.2.Sublist done) :
    ∀ e ∈ upsertAppend m k x, e.2.Sublist (done ++ [x]) := by
  induction m with
  | nil =>
    intro e he
    simp only [upsertAppend, List.mem_singleton] at he
    subst he
    exact List.sublist_append_right done [x]
  | cons hd rest ih =>
    obtain ⟨k', v⟩ := hd
    by_cases hk : k' = k
    · intro e he
      simp only [upsertAppend, if_pos hk, List.mem_cons] at he
      rcases he with rfl | he
      · exact List.Sublist.append (h (k', v) (List.mem_cons_self _ _))
          (List.Sublist.refl [x])
      · exact (h e (List.mem_cons_of_mem _ he)).trans
          (List.sublist_append_left done [x])
    · intro e he
      simp only [upsertAppend, if_neg hk, List.mem_cons] at he
      rcases he with rfl | he
      · exact (h (k', v) (List.mem_cons_self _ _)).trans
          (List.sublist_append_left done [x])
      · exact ih (fun e' he' => h e' (List.mem_cons_of_mem _ he')) e he

theorem groupByRootGo_flatten {α : Type} (ms : List α) :
    ∀ (parent : Array Nat) (idx : Nat) (acc : List (Nat × List α)),
    ((((groupByRootGo parent idx ms acc).1).map Prod.snd).flatten).Perm
      ((acc.map Prod.snd).flatten ++ ms) := by
  induction ms with
  | nil =>
    intro parent idx acc
    simp [groupByRootGo]
  | cons x xs ih =>
    intro parent idx acc
    have hstep : groupByRootGo parent idx (x :: xs) acc =
        groupByRootGo (findRoot parent idx).2 (idx + 1) xs
          (upsertAppend acc (findRoot parent idx).1 x) := rfl
    rw [hstep]
    have h1 := ih (findRoot parent idx).2 (idx + 1)
      (upsertAppend acc (findRoot parent idx).1 x)
    have h2 := List.Perm.append_right xs
      (upsertAppend_flatten acc (findRoot parent idx).1 x)
    have h3 : ((acc.map Prod.snd).flatten ++ [x]) ++ xs =
        (acc.map Prod.snd).flatten ++ (x :: xs) := by
      rw [List.append_assoc, List.singleton_append]
    exact h1.trans (by rw [← h3]; exact h2)

theorem groupByRootGo_values_ne_nil {α : Type} (ms : List α) :
    ∀ (parent : Array Nat) (idx : Nat) (acc : List (Nat × List α)),
    (∀ e ∈ acc, e.2 ≠ []) →
    ∀ e ∈ (groupByRootGo parent idx ms acc).1, e.2 ≠ [] := by
  induction ms with
  | nil =>
    intro parent idx acc h e he
    exact h e he
  | cons x xs ih =>
    intro parent idx acc h e he
    exact ih (findRoot parent idx).2 (idx + 1) _
      (upsertAppend_values_ne_nil acc (findRoot parent idx).1 x h) e he

theorem groupByRootGo_sublist {α : Type} (ms : List α) :
    ∀ (parent : Array Nat) (idx : Nat) (acc : List (Nat × List α))
      (done : List α),
    (∀ e ∈ acc, e.2.Sublist done) →
    ∀ e ∈ (groupByRootGo parent idx ms acc).1, e.2.Sublist (done ++ ms) := by
  induction ms with
  | nil =>
    intro parent idx acc done h e he
    rw [List.append_nil]
    exact h e he
  | cons x xs ih =>
    intro parent idx acc done h e he
    have h' := upsertAppend_sublist acc (findRoot parent idx).1 x done h
    have := ih (findRoot parent idx).2 (idx + 1) _ (done ++ [x]) h' e he
    rwa [List.append_assoc, List.singleton_append] at this

theorem materializeCluster_markets_perm (norm : String → Bool → String)
    (g : List ClusterMarket) (idx : Nat) :
    ((materializeCluster norm g idx).markets).Perm g := by
  cases g with
  | nil => exact List.Perm.refl _
  | cons h t => exact sortStable_perm marketLe (h :: t)

theorem materializeAll_mem (norm : String → Bool → String) :
    ∀ (groups : List (List ClusterMarket)) (idx : Nat) (c : MarketCluster),
    c ∈ materializeAll norm groups idx →
    ∃ g i, g ∈ groups ∧ c = materializeCluster norm g i := by
  intro groups
  induction groups with
  | nil => intro idx c hc; simp [materializeAll] at hc
  | cons g rest ih =>
    intro idx c hc
    simp only [materializeAll, List.mem_cons] at hc
    rcases hc with rfl | hc
    · exact ⟨g, idx, List.mem_cons_self _ _, rfl⟩
    · obtain ⟨g', i, hg', rfl⟩ := ih (idx + 1) c hc
      exact ⟨g', i, List.mem_cons_of_mem _ hg', rfl⟩

theorem materializeAll_flatMap (norm : String → Bool → String) :
    ∀ (groups : List (List ClusterMarket)) (idx : Nat),
    ((materializeAll norm groups idx).flatMap (fun c => c.markets)).Perm
      groups.flatten := by
  intro groups
  induction groups with
  | nil => intro idx; exact List.Perm.refl _
  | cons g rest ih =>
    intro idx
    simp only [materializeAll, List.flatMap_cons, List.flatten_cons]
    exact List.Perm.append (materializeCluster_markets_perm norm g idx)
      (ih (idx + 1))

theorem perm_flatMap {α β : Type} (f : α → List β) {l₁ l₂ : List α}
    (h : l₁.Perm l₂) : (l₁.flatMap f).Perm (l₂.flatMap f) := by
  induction h with
  | nil => exact List.Perm.refl _
  | cons x _ ih =>
    simp only [List.flatMap_cons]
    exact List.Perm.append_left _ ih
  | swap x y l =>
    simp only [List.flatMap_cons]
    rw [← List.append_assoc, ← List.append_assoc]
    exact List.Perm.append_right _ List.perm_append_comm
  | trans _ _ ih1 ih2 => exact ih1.trans ih2

theorem map_length_sum_eq (cs : List MarketCluster) :
    (cs.map (fun c => c.markets.length)).sum =
      (cs.flatMap (fun c => c.markets)).length := by
  induction cs with
  | nil => rfl
  | cons c rest ih => simp [List.flatMap_cons, ih]

/-- C3: clustering partitions its input: the member counts of the produced
clusters sum to the number of input snapshots, the concatenation of all
clusters' members is a permutation of the (converted) input list, so no
snapshot lands in two clusters and none is dropped, and every cluster is
nonempty (an unmatched snapshot still yields its singleton cluster). -/
theorem buildClusters_partitions (sim : MarketData → MarketData → ℚ)
    (norm : String → Bool → String) (snapshots : List MarketPriceSnapshot) :
    ((buildClusters sim norm snapshots).1.map
      (fun c => c.markets.length)).sum = snapshots.length
    ∧ ((buildClusters sim norm snapshots).1.flatMap
        (fun c => c.markets)).Perm (snapshots.map toClusterMarket)
    ∧ ((buildClusters sim norm snapshots).1.all
        (fun c => !c.markets.isEmpty)) = true := by
  by_cases hempty : snapshots = []
  · subst hempty
    exact ⟨rfl, List.Perm.refl _, rfl⟩
  · have hbc : (buildClusters sim norm snapshots).1 =
        sortStable clusterLe
          (materializeAll norm (clusterGroupsOf sim norm snapshots) 0) := by
      simp only [buildClusters, if_neg hempty]
    have hperm1 : ((buildClusters sim norm snapshots).1).Perm
        (materializeAll norm (clusterGroupsOf sim norm snapshots) 0) := by
      rw [hbc]; exact sortStable_perm _ _
    have hgroups : ((clusterGroupsOf sim norm snapshots).flatten).Perm
        (clusterMarketsOf snapshots) := by
      have h := groupByRootGo_flatten (clusterMarketsOf snapshots)
        (scanStateOf sim norm snapshots).parent 0 []
      simpa [clusterGroupsOf, groupByRoot] using h
    have hflat : ((buildClusters sim norm snapshots).1.flatMap
        (fun c => c.markets)).Perm (snapshots.map toClusterMarket) := by
      refine ((perm_flatMap _ hperm1).trans
        ((materializeAll_flatMap norm _ 0).trans ?_))
      exact hgroups
    refine ⟨?_, hflat, ?_⟩
    · rw [map_length_sum_eq, hflat.length_eq, List.length_map]
    · rw [List.all_eq_true]
      intro c hc
      have hc' : c ∈ materializeAll norm
          (clusterGroupsOf sim norm snapshots) 0 := hperm1.mem_iff.mp hc
      obtain ⟨g, i, hg, rfl⟩ := materializeAll_mem norm _ 0 c hc'
      have hgne : g ≠ [] := by
        have hg' : ∃ a, (a, g) ∈ (groupByRootGo
            (scanStateOf sim norm snapshots).parent 0
            (clusterMarketsOf snapshots) []).1 := by
          simpa [clusterGroupsOf, groupByRoot] using hg
        rcases hg' with ⟨a, he⟩
        exact groupByRootGo_values_ne_nil (clusterMarketsOf snapshots)
          (scanStateOf sim norm snapshots).parent 0 [] (by simp) (a, g) he
      have hlen : (materializeCluster norm g i).markets.length = g.length :=
        (materializeCluster_markets_perm norm g i).length_eq
      cases hm : (materializeCluster norm g i).markets with
      | nil =>
        rw [hm] at hlen
        exact absurd (List.length_eq_zero.mp hlen.symm) hgne
      | cons a l => simp

/-- Invariant of the candidate scan: the seenPairs set is exactly the
unordered keys of the scored pairs in order, it has no duplicates, and
every scored pair crosses two different platforms. -/
def ScanInv (md : Array MarketData) (st : ScanState) : Prop :=
  st.seen = st.scored.map (fun p => pairKeyOf p.1 p.2)
  ∧ st.seen.Nodup
  ∧ ∀ p ∈ st.scored,
      (md.getD p.1 default).platform ≠ (md.getD p.2 default).platform

theorem processPair_inv (sim : MarketData → MarketData → ℚ)
    (md : Array MarketData) (st : ScanState) (l r : Nat)
    (h : ScanInv md st) : ScanInv md (processPair sim md st l r) := by
  obtain ⟨h1, h2, h3⟩ := h
  by_cases hp : (md.getD l default).platform = (md.getD r default).platform
  · simp only [processPair, if_pos hp]
    exact ⟨h1, h2, h3⟩
  · by_cases hseen : pairKeyOf l r ∈ st.seen
    · simp only [processPair, if_neg hp, if_pos hseen]
      exact ⟨h1, h2, h3⟩
    · have hnew : ScanInv md
          { st with
            seen := st.seen ++ [pairKeyOf l r]
            scored := st.scored ++ [(l, r)] } := by
        refine ⟨?_, ?_, ?_⟩
        · simp only [List.map_append, ← h1, List.map_cons, List.map_nil]
        · simp [List.nodup_append, h2, hseen]
        · intro p hp'
          rcases List.mem_append.mp hp' with hmem | hmem
          · exact h3 p hmem
          · rcases List.mem_singleton.mp hmem with rfl
            exact hp
      by_cases ht : getAdaptiveThreshold (md.getD l default).marketTitle
          (md.getD r default).marketTitle ≤
          sim (md.getD l default) (md.getD r default)
      · simp only [processPair, if_neg hp, if_neg hseen, if_pos ht]
        exact hnew
      · simp only [processPair, if_neg hp, if_neg hseen, if_neg ht]
        exact hnew

theorem scanPairs_inv (sim : MarketData → MarketData → ℚ)
    (md : Array MarketData) (ps : List (Nat × Nat)) :
    ∀ st : ScanState, ScanInv md st → ScanInv md (scanPairs sim md st ps) := by
  induction ps with
  | nil => intro st h; exact h
  | cons p rest ih =>
    intro st h
    exact ih (processPair sim md st p.1 p.2)
      (processPair_inv sim md st p.1 p.2 h)

theorem candidateScan_inv (sim : MarketData → MarketData → ℚ)
    (md : Array MarketData) (buckets : List (String × List Nat)) :
    ScanInv md (candidateScan sim md buckets) := by
  have hgen : ∀ (bs : List (String × List Nat)) (st : ScanState),
      ScanInv md st →
      ScanInv md (bs.foldl
        (fun s b => scanPairs sim md s (orderedPairs b.2)) st) := by
    intro bs
    induction bs with
    | nil => intro st h; exact h
    | cons b rest ih =>
      intro st h
      exact ih _ (scanPairs_inv sim md (orderedPairs b.2) st h)
  exact hgen buckets
    { parent := Array.range md.size, seen := [], scored := [] }
    ⟨rfl, List.nodup_nil, by simp⟩

/-- C4: candidate-pair discipline of one buildClusters run: every pair on
which the similarity function is invoked crosses two different platforms
(never two snapshots of the same source), and the unordered keys of the
invoked pairs are pairwise distinct, so each unordered pair is scored at
most once even when it co-occurs in several buckets. -/
theorem candidate_pair_discipline (sim : MarketData → MarketData → ℚ)
    (norm : String → Bool → String) (snapshots : List MarketPriceSnapshot) :
    ((scoredPairsOf sim norm snapshots).all (fun p =>
      !(((marketDataOf snapshots).toArray.getD p.1 default).platform ==
        ((marketDataOf snapshots).toArray.getD p.2 default).platform)))
      = true
    ∧ ((scoredPairsOf sim norm snapshots).map
        (fun p => pairKeyOf p.1 p.2)).Nodup := by
  obtain ⟨h1, h2, h3⟩ := candidateScan_inv sim
    (marketDataOf snapshots).toArray (bucketMapOf norm (marketDataOf snapshots))
  have hs : scoredPairsOf sim norm snapshots =
      (candidateScan sim (marketDataOf snapshots).toArray
        (bucketMapOf norm (marketDataOf snapshots))).scored := rfl
  constructor
  · rw [hs, List.all_eq_true]
    intro p hp
    have hne := h3 p hp
    simp only [Bool.not_eq_true', beq_eq_false_iff_ne, ne_eq]
    exact hne
  · rw [hs, ← h1]
    exact h2

theorem longestMarket_split (rest : List ClusterMarket) :
    ∀ head : ClusterMarket,
    ∃ pre suf, head :: rest = pre ++ (longestMarket head rest) :: suf
      ∧ (∀ x ∈ pre, x.marketTitle.length <
          (longestMarket head rest).marketTitle.length)
      ∧ (∀ x ∈ head :: rest, x.marketTitle.length ≤
          (longestMarket head rest).marketTitle.length) := by
  induction rest with
  | nil =>
    intro head
    refine ⟨[], [], rfl, by simp, ?_⟩
    intro x hx
    rcases List.mem_singleton.mp hx with rfl
    exact le_refl _
  | cons y t ih =>
    intro head
    by_cases hlen : head.marketTitle.length < y.marketTitle.length
    · have hunfold : longestMarket head (y :: t) = longestMarket y t := by
        simp [longestMarket, hlen]
      obtain ⟨pre, suf, heq, hpre, hall⟩ := ih y
      refine ⟨head :: pre, suf, ?_, ?_, ?_⟩
      · rw [hunfold, List.cons_append, ← heq]
      · intro x hx
        rw [hunfold]
        rcases List.mem_cons.mp hx with rfl | hx
        · exact lt_of_lt_of_le hlen (hall y (List.mem_cons_self _ _))
        · exact hpre x hx
      · intro x hx
        rw [hunfold]
        rcases List.mem_cons.mp hx with rfl | hx
        · exact le_of_lt
            (lt_of_lt_of_le hlen (hall y (List.mem_cons_self _ _)))
        · exact hall x hx
    · have hunfold : longestMarket head (y :: t) = longestMarket head t := by
        simp [longestMarket, hlen]
      have hyh : y.marketTitle.length ≤ head.marketTitle.length :=
        not_lt.mp hlen
      obtain ⟨pre, suf, heq, hpre, hall⟩ := ih head
      cases pre with
      | nil =>
        obtain ⟨hh, hts⟩ := List.cons_eq_cons.mp heq
        refine ⟨[], y :: suf, ?_, by simp, ?_⟩
        · rw [hunfold, List.nil_append, ← hh, ← hts]
        · intro x hx
          rw [hunfold]
          rcases List.mem_cons.mp hx with hxe | hx
          · rw [hxe]
            exact hall head (List.mem_cons_self _ _)
          · rcases List.mem_cons.mp hx with hxe | hx
            · rw [hxe]
              exact hyh.trans (hall head (List.mem_cons_self _ _))
            · exact hall x (List.mem_cons_of_mem _ hx)
      | cons p pre' =>
        obtain ⟨hh, hts⟩ := List.cons_eq_cons.mp heq
        rw [List.append_eq] at hts
        have hheadL : head.marketTitle.length <
            (longestMarket head t).marketTitle.length := by
          have hp' := hpre p (List.mem_cons_self _ _)
          rwa [← hh] at hp'
        refine ⟨head :: y :: pre', suf, ?_, ?_, ?_⟩
        · rw [hunfold, List.cons_append, List.cons_append, ← hts]
        · intro x hx
          rw [hunfold]
          rcases List.mem_cons.mp hx with hxe | hx
          · subst hxe
            exact hheadL
          · rcases List.mem_cons.mp hx with hxe | hx
            · subst hxe
              exact lt_of_le_of_lt hyh hheadL
            · exact hpre x (List.mem_cons_of_mem _ hx)
        · intro x hx
          rw [hunfold]
          rcases List.mem_cons.mp hx with hxe | hx
          · rw [hxe]
            exact hall head (List.mem_cons_self _ _)
          · rcases List.mem_cons.mp hx with hxe | hx
            · rw [hxe]
              exact hyh.trans (hall head (List.mem_cons_self _ _))
            · exact hall x (List.mem_cons_of_mem _ hx)

theorem clusterGroupsOf_ne_nil (sim : MarketData → MarketData → ℚ)
    (norm : String → Bool → String) (snapshots : List MarketPriceSnapshot) :
    ∀ g ∈ clusterGroupsOf sim norm snapshots, g ≠ [] := by
  intro g hg
  have hg' : ∃ a, (a, g) ∈ (groupByRootGo
      (scanStateOf sim norm snapshots).parent 0
      (clusterMarketsOf snapshots) []).1 := by
    simpa [clusterGroupsOf, groupByRoot] using hg
  rcases hg' with ⟨a, he⟩
  exact groupByRootGo_values_ne_nil (clusterMarketsOf snapshots)
    (scanStateOf sim norm snapshots).parent 0 [] (by simp) (a, g) he

theorem clusterGroupsOf_sublist (sim : MarketData → MarketData → ℚ)
    (norm : String → Bool → String) (snapshots : List MarketPriceSnapshot) :
    ∀ g ∈ clusterGroupsOf sim norm snapshots,
      g.Sublist (clusterMarketsOf snapshots) := by
  intro g hg
  have hg' : ∃ a, (a, g) ∈ (groupByRootGo
      (scanStateOf sim norm snapshots).parent 0
      (clusterMarketsOf snapshots) []).1 := by
    simpa [clusterGroupsOf, groupByRoot] using hg
  rcases hg' with ⟨a, he⟩
  have h := groupByRootGo_sublist (clusterMarketsOf snapshots)
    (scanStateOf sim norm snapshots).parent 0 [] [] (by simp) (a, g) he
  simpa using h

/-- C7: every produced cluster's display title is the title of a member of
its underlying root group of maximal title length, and that member is the
first (in input order, the group being an order-preserving selection of
the converted input) among the members of maximal length: every earlier
group member has a strictly shorter title. -/
theorem cluster_title_longest (sim : MarketData → MarketData → ℚ)
    (norm : String → Bool → String) (snapshots : List MarketPriceSnapshot) :
    ∀ c ∈ (buildClusters sim norm snapshots).1,
    ∃ g, g ∈ clusterGroupsOf sim norm snapshots
      ∧ g.Sublist (snapshots.map toClusterMarket)
      ∧ (c.markets).Perm g
      ∧ ∃ pre m suf, g = pre ++ m :: suf
          ∧ c.title = m.marketTitle
          ∧ (∀ x ∈ pre, x.marketTitle.length < m.marketTitle.length)
          ∧ (∀ x ∈ g, x.marketTitle.length ≤ m.marketTitle.length) := by
  intro c hc
  by_cases hempty : snapshots = []
  · subst hempty
    simp [buildClusters] at hc
  · have hbc : (buildClusters sim norm snapshots).1 =
        sortStable clusterLe
          (materializeAll norm (clusterGroupsOf sim norm snapshots) 0) := by
      simp only [buildClusters, if_neg hempty]
    have hc' : c ∈ materializeAll norm
        (clusterGroupsOf sim norm snapshots) 0 := by
      rw [hbc] at hc
      exact (sortStable_perm _ _).mem_iff.mp hc
    obtain ⟨g, i, hg, rfl⟩ := materializeAll_mem norm _ 0 c hc'
    refine ⟨g, hg, clusterGroupsOf_sublist sim norm snapshots g hg,
      materializeCluster_markets_perm norm g i, ?_⟩
    cases g with
    | nil => exact absurd rfl (clusterGroupsOf_ne_nil sim norm snapshots [] hg)
    | cons h t =>
      obtain ⟨pre, suf, heq, hpre, hall⟩ := longestMarket_split t h
      exact ⟨pre, longestMarket h t, suf, heq, rfl, hpre, hall⟩

/-- Snapshot for the title witness run. -/
def c7Snap : MarketPriceSnapshot :=
  { platform := .opinion, marketId := "w7", marketTitle := "Lone market",
    price := 1, updatedAt := 0 }

/-- Witness for C7: in a concrete one-snapshot run the unique cluster is in
the output and its title satisfies the first-longest characterization. -/
theorem cluster_title_longest_witness :
    (materializeCluster concreteNorm [toClusterMarket c7Snap] 0) ∈
      (buildClusters concreteSim concreteNorm [c7Snap]).1
    ∧ ∃ g, g ∈ clusterGroupsOf concreteSim concreteNorm [c7Snap]
      ∧ g.Sublist ([c7Snap].map toClusterMarket)
      ∧ ((materializeCluster concreteNorm [toClusterMarket c7Snap] 0).markets).Perm g
      ∧ ∃ pre m suf, g = pre ++ m :: suf
          ∧ (materializeCluster concreteNorm [toClusterMarket c7Snap] 0).title =
            m.marketTitle
          ∧ (∀ x ∈ pre, x.marketTitle.length < m.marketTitle.length)
          ∧ (∀ x ∈ g, x.marketTitle.length ≤ m.marketTitle.length) := by
  have hmem : (materializeCluster concreteNorm [toClusterMarket c7Snap] 0) ∈
      (buildClusters concreteSim concreteNorm [c7Snap]).1 := by
    have hlist : (buildClusters concreteSim concreteNorm [c7Snap]).1 =
        [materializeCluster concreteNorm [toClusterMarket c7Snap] 0] := rfl
    rw [hlist]
    exact List.mem_singleton.mpr rfl
  exact ⟨hmem,
    cluster_title_longest concreteSim concreteNorm [c7Snap] _ hmem⟩

theorem classifyMarketTheme_mem_keys (title : String) :
    classifyMarketTheme title ∈ marketThemes.map (fun th => th.key) := by
  rcases classifyGo_mem (strToLower title) (tokenizeTitle title)
    marketThemes with h | h
  · have h' : classifyMarketTheme title = "other" := h
    rw [h']; decide
  · exact h

theorem materializeCluster_themeKey_mem (norm : String → Bool → String)
    (g : List ClusterMarket) (i : Nat) (hne : g ≠ []) :
    (materializeCluster norm g i).themeKey ∈
      marketThemes.map (fun th => th.key) := by
  cases g with
  | nil => exact absurd rfl hne
  | cons h t => exact classifyMarketTheme_mem_keys _

theorem hasGroup_iff {κ α : Type} [DecidableEq κ]
    (m : List (κ × List α)) (k : κ) :
    hasGroup m k = true ↔ k ∈ m.map Prod.fst := by
  unfold hasGroup
  rw [List.any_eq_true]
  constructor
  · rintro ⟨e, he, hek⟩
    exact List.mem_map.mpr ⟨e, he, of_decide_eq_true hek⟩
  · intro hmem
    rcases List.mem_map.mp hmem with ⟨e, he, hek⟩
    exact ⟨e, he, decide_eq_true hek⟩

theorem appendAt_keys {κ α : Type} [DecidableEq κ]
    (m : List (κ × List α)) (k : κ) (x : α) :
    (appendAt m k x).map Prod.fst = m.map Prod.fst := by
  induction m with
  | nil => rfl
  | cons e rest ih =>
    simp only [appendAt, List.map_cons, ih]
    by_cases h : e.1 = k
    · rw [if_pos h]
    · rw [if_neg h]

theorem appendAt_not_mem {κ α : Type} [DecidableEq κ]
    (m : List (κ × List α)) (k : κ) (x : α)
    (h : k ∉ m.map Prod.fst) : appendAt m k x = m := by
  induction m with
  | nil => rfl
  | cons e rest ih =>
    rw [List.map_cons] at h
    simp only [List.mem_cons, not_or] at h
    obtain ⟨h1, h2⟩ := h
    have hne : ¬ e.1 = k := fun he => h1 he.symm
    simp only [appendAt, if_neg hne, ih h2]

theorem appendAt_flatten {κ α : Type} [DecidableEq κ]
    (m : List (κ × List α)) (k : κ) (x : α)
    (hnd : (m.map Prod.fst).Nodup) (hk : k ∈ m.map Prod.fst) :
    (((appendAt m k x).map Prod.snd).flatten).Perm
      ((m.map Prod.snd).flatten ++ [x]) := by
  induction m with
  | nil => simp at hk
  | cons e rest ih =>
    obtain ⟨k', v⟩ := e
    rw [List.map_cons] at hnd
    by_cases h : k' = k
    · subst h
      have hrest : k' ∉ rest.map Prod.fst := (List.nodup_cons.mp hnd).1
      have happ : appendAt ((k', v) :: rest) k' x =
          (k', v ++ [x]) :: rest := by
        simp only [appendAt, eq_self_iff_true, if_true,
          appendAt_not_mem rest k' x hrest]
      rw [happ]
      simp only [List.map_cons, List.flatten_cons]
      have h1 : (v ++ [x]) ++ (rest.map Prod.snd).flatten =
          v ++ ([x] ++ (rest.map Prod.snd).flatten) := by
        rw [List.append_assoc]
      rw [h1]
      have h2 : (v ++ ([x] ++ (rest.map Prod.snd).flatten)).Perm
          (v ++ ((rest.map Prod.snd).flatten ++ [x])) :=
        List.Perm.append_left v List.perm_append_comm
      have h3 : v ++ ((rest.map Prod.snd).flatten ++ [x]) =
          (v ++ (rest.map Prod.snd).flatten) ++ [x] :=
        (List.append_assoc _ _ _).symm
      rw [h3] at h2
      exact h2
    · have hk' : k ∈ rest.map Prod.fst := by
        rcases List.mem_cons.mp hk with hke | hk2
        · exact absurd hke.symm h
        · exact hk2
      have happ : appendAt ((k', v) :: rest) k x =
          (k', v) :: appendAt rest k x := by
        simp only [appendAt, if_neg h]
      rw [happ]
      simp only [List.map_cons, List.flatten_cons]
      have h2 : (v ++ ((appendAt rest k x).map Prod.snd).flatten).Perm
          (v ++ ((rest.map Prod.snd).flatten ++ [x])) :=
        List.Perm.append_left v (ih (List.nodup_cons.mp hnd).2 hk')
      have h3 : v ++ ((rest.map Prod.snd).flatten ++ [x]) =
          (v ++ (rest.map Prod.snd).flatten) ++ [x] :=
        (List.append_assoc _ _ _).symm
      rw [h3] at h2
      exact h2

theorem themePush_keys (m : List (String × List MarketCluster))
    (c : MarketCluster) :
    (themePush m c).map Prod.fst = m.map Prod.fst := by
  unfold themePush
  by_cases h1 : hasGroup m c.themeKey = true
  · rw [if_pos h1, appendAt_keys]
  · rw [if_neg h1]
    by_cases h2 : hasGroup m "other" = true
    · rw [if_pos h2, appendAt_keys]
    · rw [if_neg h2]

theorem foldl_themePush (clusters : List MarketCluster) :
    ∀ m : List (String × List MarketCluster),
    m.map Prod.fst = marketThemes.map (fun th => th.key) →
    (∀ c ∈ clusters, c.themeKey ∈ marketThemes.map (fun th => th.key)) →
    ((clusters.foldl themePush m).map Prod.fst =
      marketThemes.map (fun th => th.key))
    ∧ (((clusters.foldl themePush m).map Prod.snd).flatten).Perm
        ((m.map Prod.snd).flatten ++ clusters) := by
  induction clusters with
  | nil =>
    intro m hkeys _
    exact ⟨hkeys, by simp⟩
  | cons c rest ih =>
    intro m hkeys hmem
    have hkc : c.themeKey ∈ m.map Prod.fst := by
      rw [hkeys]; exact hmem c (List.mem_cons_self _ _)
    have hpush : themePush m c = appendAt m c.themeKey c := by
      unfold themePush
      rw [if_pos ((hasGroup_iff m c.themeKey).mpr hkc)]
    have hnd : (m.map Prod.fst).Nodup := by
      rw [hkeys]; decide
    have hkeys' : (themePush m c).map Prod.fst =
        marketThemes.map (fun th => th.key) := by
      rw [themePush_keys, hkeys]
    obtain ⟨ih1, ih2⟩ := ih (themePush m c) hkeys'
      (fun c' hc' => hmem c' (List.mem_cons_of_mem _ hc'))
    refine ⟨ih1, ?_⟩
    have hp : ((themePush m c).map Prod.snd).flatten.Perm
        ((m.map Prod.snd).flatten ++ [c]) := by
      rw [hpush]; exact appendAt_flatten m c.themeKey c hnd hkc
    have hchain := ih2.trans (List.Perm.append_right rest hp)
    have hassoc : ((m.map Prod.snd).flatten ++ [c]) ++ rest =
        (m.map Prod.snd).flatten ++ (c :: rest) := by
      rw [List.append_assoc, List.singleton_append]
    rw [hassoc] at hchain
    exact hchain

theorem flatMap_lookup_flatten {κ α : Type} [DecidableEq κ] :
    ∀ m : List (κ × List α),
    (m.map Prod.fst).Nodup →
    (m.map Prod.fst).flatMap (fun k => (lookupGroup m k).getD []) =
      (m.map Prod.snd).flatten := by
  intro m
  induction m with
  | nil => intro _; rfl
  | cons e rest ih =>
    intro hnd
    obtain ⟨k, v⟩ := e
    rw [List.map_cons] at hnd
    have hhead : (lookupGroup ((k, v) :: rest) k).getD [] = v := by
      unfold lookupGroup
      rw [List.find?_cons_of_pos _ (by simp)]
      rfl
    have hrest : ∀ k' ∈ rest.map Prod.fst,
        (lookupGroup ((k, v) :: rest) k').getD [] =
          (lookupGroup rest k').getD [] := by
      intro k' hk'
      have hne : ¬ ((k, v).1 = k') := by
        intro he
        exact (List.nodup_cons.mp hnd).1 (he ▸ hk')
      unfold lookupGroup
      rw [List.find?_cons_of_neg _ (by simpa using hne)]
    calc ((((k, v) :: rest).map Prod.fst).flatMap
          (fun k' => (lookupGroup ((k, v) :: rest) k').getD []))
        = (lookupGroup ((k, v) :: rest) k).getD [] ++
            (rest.map Prod.fst).flatMap
              (fun k' => (lookupGroup ((k, v) :: rest) k').getD []) := by
          rw [List.map_cons, List.flatMap_cons]
      _ = v ++ (rest.map Prod.fst).flatMap
            (fun k' => (lookupGroup rest k').getD []) := by
          rw [hhead, List.flatMap_congr hrest]
      _ = v ++ (rest.map Prod.snd).flatten :=
          congrArg (v ++ ·) (ih (List.nodup_cons.mp hnd).2)
      _ = (((k, v) :: rest).map Prod.snd).flatten := by
          rw [List.map_cons, List.flatten_cons]

theorem foldl_add_len (cs : List MarketCluster) :
    ∀ n : Nat, cs.foldl (fun sum c => sum + c.markets.length) n =
      n + (cs.map (fun c => c.markets.length)).sum := by
  induction cs with
  | nil => intro n; simp
  | cons c rest ih =>
    intro n
    rw [List.foldl_cons, ih, List.map_cons, List.sum_cons, Nat.add_assoc]

theorem themesOf_facts (buckets : List (String × List MarketCluster)) :
    ((themesOf buckets).map (fun t => t.themeKey) =
      marketThemes.map (fun th => th.key))
    ∧ ((themesOf buckets).map (fun t => t.totalClusters) =
      (themesOf buckets).map (fun t => t.clusters.length))
    ∧ ((themesOf buckets).map (fun t => t.totalMarkets) =
      (themesOf buckets).map
        (fun t => (t.clusters.map (fun c => c.markets.length)).sum)) := by
  refine ⟨?_, ?_, ?_⟩
  · unfold themesOf
    rw [List.map_map]
    rfl
  · unfold themesOf
    rw [List.map_map, List.map_map]
    rfl
  · unfold themesOf
    rw [List.map_map, List.map_map]
    refine List.map_congr_left fun th _ => ?_
    show ((lookupGroup buckets th.key).getD []).foldl
        (fun sum c => sum + c.markets.length) 0 =
      (((lookupGroup buckets th.key).getD []).map
        (fun c => c.markets.length)).sum
    rw [foldl_add_len]
    exact Nat.zero_add _

/-- C10: buildClusters on the empty list yields empty clusters and empty
themes; on any nonempty list the theme list has exactly one group per
declared theme, all ten in taxonomy order, each group's totalClusters and
totalMarkets agree with its clusters list, and the groups' clusters lists
together are a permutation of the produced cluster list (every cluster in
exactly one group). -/
theorem theme_groups_complete (sim : MarketData → MarketData → ℚ)
    (norm : String → Bool → String) :
    buildClusters sim norm [] = ([], [])
    ∧ ∀ (s : MarketPriceSnapshot) (rest : List MarketPriceSnapshot),
      ((buildClusters sim norm (s :: rest)).2.map (fun t => t.themeKey) =
        marketThemes.map (fun th => th.key))
      ∧ ((buildClusters sim norm (s :: rest)).2.map (fun t => t.totalClusters)
        = (buildClusters sim norm (s :: rest)).2.map
            (fun t => t.clusters.length))
      ∧ ((buildClusters sim norm (s :: rest)).2.map (fun t => t.totalMarkets)
        = (buildClusters sim norm (s :: rest)).2.map
            (fun t => (t.clusters.map (fun c => c.markets.length)).sum))
      ∧ ((buildClusters sim norm (s :: rest)).2.flatMap
          (fun t => t.clusters)).Perm
          (buildClusters sim norm (s :: rest)).1 := by
  refine ⟨rfl, ?_⟩
  intro s rest
  have hbc1 : (buildClusters sim norm (s :: rest)).1 =
      sortStable clusterLe
        (materializeAll norm (clusterGroupsOf sim norm (s :: rest)) 0) := rfl
  have hbc2 : (buildClusters sim norm (s :: rest)).2 =
      themesOf (((buildClusters sim norm (s :: rest)).1).foldl themePush
        themeBucketsSeed) := rfl
  have hmemkeys : ∀ c ∈ (buildClusters sim norm (s :: rest)).1,
      c.themeKey ∈ marketThemes.map (fun th => th.key) := by
    intro c hc
    rw [hbc1] at hc
    have hc' := (sortStable_perm clusterLe _).mem_iff.mp hc
    obtain ⟨g, i, hg, rfl⟩ := materializeAll_mem norm _ 0 c hc'
    exact materializeCluster_themeKey_mem norm g i
      (clusterGroupsOf_ne_nil sim norm (s :: rest) g hg)
  have hseedkeys : themeBucketsSeed.map Prod.fst =
      marketThemes.map (fun th => th.key) := by decide
  obtain ⟨hk, hperm⟩ := foldl_themePush
    ((buildClusters sim norm (s :: rest)).1) themeBucketsSeed hseedkeys
    hmemkeys
  have hseedflat : ((themeBucketsSeed.map Prod.snd).flatten :
      List MarketCluster) = [] := rfl
  rw [hseedflat, List.nil_append] at hperm
  refine ⟨?_, ?_, ?_, ?_⟩
  · rw [hbc2]
    exact (themesOf_facts _).1
  · rw [hbc2]
    exact (themesOf_facts _).2.1
  · rw [hbc2]
    exact (themesOf_facts _).2.2
  · rw [hbc2]
    have h1 : (themesOf (((buildClusters sim norm (s :: rest)).1).foldl
          themePush themeBucketsSeed)).flatMap (fun t => t.clusters) =
        (((((buildClusters sim norm (s :: rest)).1).foldl themePush
          themeBucketsSeed)).map Prod.fst).flatMap
          (fun k => (lookupGroup (((buildClusters sim norm
            (s :: rest)).1).foldl themePush themeBucketsSeed) k).getD []) := by
      unfold themesOf
      rw [List.flatMap_map, hk, List.flatMap_map]
    have hnd : (((((buildClusters sim norm (s :: rest)).1).foldl themePush
        themeBucketsSeed)).map Prod.fst).Nodup := by
      rw [hk]; decide
    have h2 := flatMap_lookup_flatten _ hnd
    rw [h1, h2]
    exact hperm
